import Mathlib

/-!
Verification of the wplace-tools diff engine against its specification.

The definitions below are shallow embeddings of the Rust sources:
 - `src/lib.rs` (`apply_chunk`, `Canvas::copy`, mask constants),
 - `src/bin/archive-tool.rs` (`diff_chunk`, the `do_diff` worker decision),
 - `src/diff3.rs` (`DiffFile::open`, `DiffFile::query_chunk`,
   `DiffFileWriter::create/add_entry/finalize`),
 - `src/tar.rs` (`ChunksTarReader::index_chunks`).

Byte buffers are `List Nat` with each element a byte value; machine
integer overflow is modelled explicitly with `% 2^64` where the Rust code
uses (release-mode, wrapping) `u64` arithmetic.  External codecs
(zstd, deflate, PNG, serde_json) are kept abstract: they are passed in as
function parameters where a claim touches them.
-/

/-- `CHUNK_WIDTH` from src/lib.rs. -/
def CHUNK_WIDTH : Nat := 1000

/-- `CHUNK_LENGTH` from src/lib.rs: 1000 * 1000 bytes per chunk. -/
def CHUNK_LENGTH : Nat := CHUNK_WIDTH * CHUNK_WIDTH

/-- `MUTATION_MASK` from src/lib.rs (`0b0100_0000`). -/
def MUTATION_MASK : Nat := 64

/-- `PALETTE_INDEX_MASK` from src/lib.rs (`0b0011_1111`). -/
def PALETTE_INDEX_MASK : Nat := 63

/-- A buffer is canonical when every byte is a palette index in [0, 63]. -/
def Canonical (buf : List Nat) : Prop := ∀ b ∈ buf, b ≤ 63

/-- Shallow embedding of `apply_chunk` (src/lib.rs lines 227-239).
The Rust code iterates `base.iter_mut().zip(diff_data.iter())`, so the
loop stops at the shorter of the two buffers and any remaining base bytes
are left untouched. -/
def apply_chunk : List Nat → List Nat → List Nat
  | [], _ => []
  | b :: bs, [] => b :: bs
  | b :: bs, m :: ms =>
      (if m &&& MUTATION_MASK ≠ 0 then m &&& PALETTE_INDEX_MASK else b) :: apply_chunk bs ms

/-- Shallow embedding of the mask derivation `diff_chunk`
(src/bin/archive-tool.rs lines 142-151; `diff_png` in src/archive_tool.rs
has the same per-byte logic).  The mask is written back into the base
buffer in Rust; here we return it.  The zip again stops at the shorter
buffer, leftover base bytes staying in place. -/
def diff_chunk : List Nat → List Nat → List Nat
  | [], _ => []
  | b :: bs, [] => b :: bs
  | b :: bs, n :: ns =>
      (if b &&& PALETTE_INDEX_MASK = n &&& PALETTE_INDEX_MASK then 0
       else (n &&& PALETTE_INDEX_MASK) ||| MUTATION_MASK) :: diff_chunk bs ns

/- Byte-level facts about the 6-bit palette masks. -/

lemma and63_of_le {x : Nat} (h : x ≤ 63) : x &&& 63 = x := by
  have h63 : (63 : Nat) = 2 ^ 6 - 1 := by norm_num
  rw [h63, Nat.and_pow_two_sub_one_eq_mod]
  exact Nat.mod_eq_of_lt (by omega)

lemma or64_and63 : ∀ x, x < 64 → ((x ||| 64) &&& 63 = x ∧ (x ||| 64) &&& 64 = 64) := by
  decide

lemma apply_diff_roundtrip :
    ∀ (base new : List Nat), base.length = new.length →
      Canonical base → Canonical new →
      apply_chunk base (diff_chunk base new) = new := by
  intro base
  induction base with
  | nil =>
      intro new hlen _ _
      cases new with
      | nil => rfl
      | cons n ns => simp at hlen
  | cons b bs ih =>
      intro new hlen hb hn
      cases new with
      | nil => simp at hlen
      | cons n ns =>
          have hble : b ≤ 63 := hb b (by simp)
          have hnle : n ≤ 63 := hn n (by simp)
          have hbs : Canonical bs := fun x hx => hb x (by simp [hx])
          have hns : Canonical ns := fun x hx => hn x (by simp [hx])
          have hlen' : bs.length = ns.length := by simpa using hlen
          have hb63 : b &&& 63 = b := and63_of_le hble
          have hn63 : n &&& 63 = n := and63_of_le hnle
          simp only [diff_chunk, apply_chunk, PALETTE_INDEX_MASK, MUTATION_MASK, hb63, hn63]
          by_cases heq : b = n
          · subst heq
            simp only [if_pos rfl]
            have : (0 : Nat) &&& 64 = 0 := by decide
            simp [this, ih ns hlen' hbs hns]
          · have hor := or64_and63 n (by omega)
            simp only [if_neg heq]
            rw [if_pos (by rw [hor.2]; omega), hor.1, ih ns hlen' hbs hns]

/-- C1: for canonical 1,000,000-byte buffers `base` and `new`, applying the
mask produced by the diff derivation for `(base, new)` to `base` yields a
buffer byte-equal to `new`: `apply_chunk base (diff_chunk base new) = new`. -/
theorem diff_apply_roundtrip_c1 (base new : List Nat)
    (hbl : base.length = 1000000) (hnl : new.length = 1000000)
    (hb : Canonical base) (hn : Canonical new) :
    apply_chunk base (diff_chunk base new) = new :=
  apply_diff_roundtrip base new (by omega) hb hn

/-- Witness for C1 at concrete canonical buffers. -/
theorem diff_apply_roundtrip_c1_witness :
    (List.replicate 1000000 0).length = 1000000 ∧
    (List.replicate 1000000 1).length = 1000000 ∧
    Canonical (List.replicate 1000000 0) ∧
    Canonical (List.replicate 1000000 1) ∧
    apply_chunk (List.replicate 1000000 0)
        (diff_chunk (List.replicate 1000000 0) (List.replicate 1000000 1)) =
      List.replicate 1000000 1 := by
  have h0 : Canonical (List.replicate 1000000 0) := by
    intro b hb; have := List.eq_of_mem_replicate hb; omega
  have h1 : Canonical (List.replicate 1000000 1) := by
    intro b hb; have := List.eq_of_mem_replicate hb; omega
  exact ⟨by rw [List.length_replicate], by rw [List.length_replicate], h0, h1,
    diff_apply_roundtrip_c1 _ _ (by rw [List.length_replicate])
      (by rw [List.length_replicate]) h0 h1⟩

lemma apply_chunk_length : ∀ (b m : List Nat), (apply_chunk b m).length = b.length := by
  intro b
  induction b with
  | nil => intro m; cases m <;> rfl
  | cons x xs ih =>
      intro m
      cases m with
      | nil => rfl
      | cons y ys => simpa [apply_chunk] using ih ys

lemma apply_chunk_getD :
    ∀ (b m : List Nat) (i : Nat), i < b.length →
      (apply_chunk b m).getD i 0 =
        if (m.getD i 0) &&& MUTATION_MASK ≠ 0 then (m.getD i 0) &&& PALETTE_INDEX_MASK
        else b.getD i 0 := by
  intro b
  induction b with
  | nil => intro m i hi; simp at hi
  | cons x xs ih =>
      intro m i hi
      cases m with
      | nil =>
          have hm : (([] : List Nat).getD i 0) = 0 := by simp
          rw [hm]
          simp [apply_chunk, MUTATION_MASK]
      | cons y ys =>
          cases i with
          | zero => simp [apply_chunk]
          | succ j =>
              have hj : j < xs.length := by simpa using hi
              simpa [apply_chunk] using ih ys j hj

/-- C3: applying a 1,000,000-byte mask `M` to a base buffer `B` yields `B'`
with, at every position `i` of `B`: `B'[i] = M[i] &&& PALETTE_INDEX_MASK`
when `M[i] &&& MUTATION_MASK ≠ 0`, and `B'[i] = B[i]` otherwise; the length
is unchanged. -/
theorem apply_chunk_semantics_c3 (B M : List Nat) (hM : M.length = 1000000)
    (i : Nat) (hi : i < B.length) :
    (apply_chunk B M).length = B.length ∧
    (apply_chunk B M).getD i 0 =
      (if (M.getD i 0) &&& MUTATION_MASK ≠ 0 then (M.getD i 0) &&& PALETTE_INDEX_MASK
       else B.getD i 0) :=
  ⟨apply_chunk_length B M, apply_chunk_getD B M i hi⟩

/-- Witness for C3 at a concrete base and mask. -/
theorem apply_chunk_semantics_c3_witness :
    (List.replicate 1000000 70).length = 1000000 ∧ (0 : Nat) < [5].length ∧
    ((apply_chunk [5] (List.replicate 1000000 70)).length = [5].length ∧
     (apply_chunk [5] (List.replicate 1000000 70)).getD 0 0 =
       (if ((List.replicate 1000000 70).getD 0 0) &&& MUTATION_MASK ≠ 0 then
          ((List.replicate 1000000 70).getD 0 0) &&& PALETTE_INDEX_MASK
        else ([5] : List Nat).getD 0 0)) :=
  ⟨by rw [List.length_replicate], by simp,
    apply_chunk_semantics_c3 [5] _ (by rw [List.length_replicate]) 0 (by simp)⟩

/-- C10: `apply_chunk` preserves canonicality: if every byte of the base is
in [0, 63] then, for an arbitrary mask, every byte of the result is still
in [0, 63] (mutated positions are masked with `PALETTE_INDEX_MASK`). -/
theorem apply_chunk_canonical_c10 (B M : List Nat) (h : Canonical B) :
    Canonical (apply_chunk B M) := by
  induction B generalizing M with
  | nil => cases M <;> exact h
  | cons b bs ih =>
      cases M with
      | nil => exact h
      | cons m ms =>
          intro v hv
          simp only [apply_chunk] at hv
          rcases List.mem_cons.1 hv with h1 | h2
          · subst h1
            by_cases hm : m &&& MUTATION_MASK ≠ 0
            · rw [if_pos hm]
              exact Nat.le_trans Nat.and_le_right (by norm_num [PALETTE_INDEX_MASK])
            · rw [if_neg hm]
              exact h b (by simp)
          · exact ih ms (fun x hx => h x (List.mem_cons_of_mem b hx)) v h2

/-- Witness for C10 at a concrete canonical base and arbitrary mask. -/
theorem apply_chunk_canonical_c10_witness :
    Canonical [0, 63] ∧ Canonical (apply_chunk [0, 63] [200, 70]) := by
  have h : Canonical [0, 63] := by intro b hb; simp at hb; omega
  exact ⟨h, apply_chunk_canonical_c10 [0, 63] [200, 70] h⟩

/-! ## Diff container writer (src/diff3.rs) -/

/-- Fixed-size 24-byte index entry (src/diff3.rs lines 26-33). -/
structure IndexEntry where
  x : Nat
  y : Nat
  checksum : Nat
  pos : Nat
  len : Nat
deriving DecidableEq, Repr

/-- `IndexEntry::is_changed` (src/diff3.rs lines 37-39). -/
def IndexEntry.is_changed (e : IndexEntry) : Bool := e.pos != 0 || e.len != 0

/-- In-memory state of `DiffFileWriter` between `create` and `finalize`:
the running payload position `current_diff_data_pos`, the in-memory index
entries, and the payload bytes appended to the output stream so far. -/
structure WriterState where
  currentPos : Nat
  entries : List IndexEntry
  payload : List Nat
deriving DecidableEq, Repr

/-- `DiffFileWriter::create` (src/diff3.rs lines 172-190): after the header
and metadata are written, the payload start position is recorded. -/
def createWriter (payloadStart : Nat) : WriterState :=
  { currentPos := payloadStart, entries := [], payload := [] }

/-- `DiffFileWriter::add_entry` (src/diff3.rs lines 195-221): `some data`
appends the compressed diff bytes and records `(current_pos, len)`;
`none` records the unchanged entry `(0, 0)`. -/
def add_entry (st : WriterState) (n : Nat × Nat) (data : Option (List Nat))
    (checksum : Nat) : WriterState :=
  match data with
  | some d =>
      { currentPos := st.currentPos + d.length,
        entries := st.entries ++ [IndexEntry.mk n.1 n.2 checksum st.currentPos d.length],
        payload := st.payload ++ d }
  | none =>
      { st with entries := st.entries ++ [IndexEntry.mk n.1 n.2 checksum 0 0] }

/-- The consumer loop of `do_diff` (src/bin/archive-tool.rs lines 333-335):
fold `add_entry` over the received messages `(chunk, Option<bytes>, checksum)`. -/
def processMsgs (st : WriterState)
    (msgs : List ((Nat × Nat) × Option (List Nat) × Nat)) : WriterState :=
  msgs.foldl (fun s m => add_entry s m.1 m.2.1 m.2.2) st

/-- The worker decision of `do_diff` (src/bin/archive-tool.rs lines 316-324):
when the base chunk is present and byte-equal to the new chunk the message
carries no diff data; otherwise the zstd-compressed mask is attached.
`compress` abstracts the external zstd encoder. -/
def workerMessage (basePresent : Bool) (baseBuf newBuf : List Nat)
    (compress : List Nat → List Nat) : Option (List Nat) :=
  if basePresent = true ∧ baseBuf = newBuf then none
  else some (compress (diff_chunk baseBuf newBuf))

/-- C4: for a chunk whose base and new buffers are byte-equal (base present),
the pipeline records the chunk as unchanged: the index entry has
`pos = 0` and `len = 0`, and no bytes are appended to the payload. -/
theorem diff3_unchanged_entry_c4 (basePresent : Bool) (baseBuf newBuf : List Nat)
    (compress : List Nat → List Nat) (st : WriterState) (n : Nat × Nat) (cs : Nat)
    (h1 : basePresent = true) (h2 : baseBuf = newBuf) :
    (add_entry st n (workerMessage basePresent baseBuf newBuf compress) cs).entries =
        st.entries ++ [IndexEntry.mk n.1 n.2 cs 0 0] ∧
    (add_entry st n (workerMessage basePresent baseBuf newBuf compress) cs).payload =
        st.payload ∧
    (add_entry st n (workerMessage basePresent baseBuf newBuf compress) cs).currentPos =
        st.currentPos := by
  simp [workerMessage, h1, h2, add_entry]

/-- Witness for C4 at a concrete writer state and chunk. -/
theorem diff3_unchanged_entry_c4_witness :
    true = true ∧ ([1, 2] : List Nat) = [1, 2] ∧
    ((add_entry (createWriter 31) (3, 4) (workerMessage true [1, 2] [1, 2] id) 77).entries =
        (createWriter 31).entries ++ [IndexEntry.mk 3 4 77 0 0] ∧
     (add_entry (createWriter 31) (3, 4) (workerMessage true [1, 2] [1, 2] id) 77).payload =
        (createWriter 31).payload ∧
     (add_entry (createWriter 31) (3, 4) (workerMessage true [1, 2] [1, 2] id) 77).currentPos =
        (createWriter 31).currentPos) :=
  ⟨rfl, rfl, diff3_unchanged_entry_c4 true [1, 2] [1, 2] id (createWriter 31) (3, 4) 77 rfl rfl⟩

lemma processMsgs_inv (ps : Nat) :
    ∀ (msgs : List ((Nat × Nat) × Option (List Nat) × Nat)) (st : WriterState),
      ps ≤ st.currentPos →
      (∀ e ∈ st.entries, e.is_changed = true → ps ≤ e.pos ∧ e.pos + e.len ≤ st.currentPos) →
      st.entries.Pairwise
        (fun a b => a.is_changed = true → b.is_changed = true → a.pos + a.len ≤ b.pos) →
      ps ≤ (processMsgs st msgs).currentPos ∧
      (∀ e ∈ (processMsgs st msgs).entries, e.is_changed = true →
          ps ≤ e.pos ∧ e.pos + e.len ≤ (processMsgs st msgs).currentPos) ∧
      (processMsgs st msgs).entries.Pairwise
        (fun a b => a.is_changed = true → b.is_changed = true → a.pos + a.len ≤ b.pos) := by
  intro msgs
  induction msgs with
  | nil => intro st h1 h2 h3; exact ⟨h1, h2, h3⟩
  | cons msg rest ih =>
      intro st h1 h2 h3
      obtain ⟨n, data, cs⟩ := msg
      have hstep : processMsgs st ((n, data, cs) :: rest) =
          processMsgs (add_entry st n data cs) rest := rfl
      rw [hstep]
      cases data with
      | none =>
          apply ih
          · exact h1
          · intro e he hch
            simp only [add_entry, List.mem_append, List.mem_singleton] at he
            rcases he with he | he
            · exact h2 e he hch
            · subst he
              simp [IndexEntry.is_changed] at hch
          · simp only [add_entry]
            rw [List.pairwise_append]
            refine ⟨h3, List.pairwise_singleton _ _, ?_⟩
            intro a ha b hb hca hcb
            rw [List.mem_singleton] at hb
            subst hb
            simp [IndexEntry.is_changed] at hcb
      | some d =>
          apply ih
          · simp only [add_entry]
            omega
          · intro e he hch
            simp only [add_entry, List.mem_append, List.mem_singleton] at he
            rcases he with he | he
            · have := h2 e he hch
              simp only [add_entry]
              omega
            · subst he
              simp only [add_entry]
              omega
          · simp only [add_entry]
            rw [List.pairwise_append]
            refine ⟨h3, List.pairwise_singleton _ _, ?_⟩
            intro a ha b hb hca hcb
            rw [List.mem_singleton] at hb
            subst hb
            have := h2 a ha hca
            show a.pos + a.len ≤ st.currentPos
            omega

/-- C6: for every sequence of messages consumed from a fresh writer, every
changed entry's byte range `[pos, pos+len)` lies inside the payload region
(at or after the payload start recorded at creation and before the index
position, which is the final stream position), and the ranges of distinct
changed entries are pairwise disjoint. -/
theorem diff3_payload_ranges_c6 (msgs : List ((Nat × Nat) × Option (List Nat) × Nat))
    (ps : Nat) :
    (∀ e ∈ (processMsgs (createWriter ps) msgs).entries, e.is_changed = true →
        ps ≤ e.pos ∧ e.pos + e.len ≤ (processMsgs (createWriter ps) msgs).currentPos) ∧
    (processMsgs (createWriter ps) msgs).entries.Pairwise
      (fun a b => a.is_changed = true → b.is_changed = true →
        a.pos + a.len ≤ b.pos ∨ b.pos + b.len ≤ a.pos) := by
  have h := processMsgs_inv ps msgs (createWriter ps) (Nat.le_refl ps)
    (by intro e he; simp [createWriter] at he) (by simp [createWriter])
  exact ⟨h.2.1, h.2.2.imp (fun hab hca hcb => Or.inl (hab hca hcb))⟩

/-- `(e.x, e.y)` lexicographic (Rust tuple `Ord`) as a Bool predicate,
the comparison used by `sort_by_key` in `finalize`. -/
def entryKeyLe (a b : IndexEntry) : Bool :=
  decide (a.x < b.x ∨ (a.x = b.x ∧ a.y ≤ b.y))

/-- Strict lexicographic order on `(e.x, e.y)`. -/
def entryKeyLt (a b : IndexEntry) : Prop :=
  a.x < b.x ∨ (a.x = b.x ∧ a.y < b.y)

instance : DecidableRel entryKeyLt := fun a b => by
  unfold entryKeyLt; infer_instance

/-- `DiffFileWriter::finalize` (src/diff3.rs lines 223-247): the in-memory
entries are sorted by the key `(e.x, e.y)` (stable sort) and written out in
that order. -/
def finalizeEntries (entries : List IndexEntry) : List IndexEntry :=
  entries.mergeSort entryKeyLe

/-- Counterexample to C5 as stated: two `add_entry` calls with the same
chunk number lead to equal adjacent index entries after `finalize`, so the
on-disk index is not strictly increasing. -/
theorem diff3_index_strict_c5_counterexample :
    ¬ (finalizeEntries (processMsgs (createWriter 31)
        [((1, 1), none, 0), ((1, 1), none, 0)]).entries).Chain' entryKeyLt := by
  intro hch
  have hentries : (processMsgs (createWriter 31)
      [((1, 1), none, 0), ((1, 1), none, 0)]).entries =
      [IndexEntry.mk 1 1 0 0 0, IndexEntry.mk 1 1 0 0 0] := rfl
  have hsorted : List.Pairwise (fun a b => entryKeyLe a b = true)
      [IndexEntry.mk 1 1 0 0 0, IndexEntry.mk 1 1 0 0 0] := by
    simp [List.pairwise_cons, entryKeyLe]
  have hfin : finalizeEntries (processMsgs (createWriter 31)
      [((1, 1), none, 0), ((1, 1), none, 0)]).entries =
      [IndexEntry.mk 1 1 0 0 0, IndexEntry.mk 1 1 0 0 0] := by
    rw [hentries]
    exact List.mergeSort_of_sorted hsorted
  rw [hfin] at hch
  have hlt : entryKeyLt (IndexEntry.mk 1 1 0 0 0) (IndexEntry.mk 1 1 0 0 0) :=
    (List.chain'_cons.1 hch).1
  simp [entryKeyLt] at hlt

/-- C5 (amended): after `finalize`, provided the chunk numbers of the
recorded entries are pairwise distinct, every adjacent pair of index
entries is strictly increasing in lexicographic `(x, y)`; with duplicate
chunk numbers the sorted index is only non-strictly ordered. -/
theorem diff3_index_strict_sorted_c5 (entries : List IndexEntry)
    (h : (entries.map fun e => (e.x, e.y)).Nodup) :
    (finalizeEntries entries).Chain' entryKeyLt := by
  have htrans : ∀ (a b c : IndexEntry),
      entryKeyLe a b → entryKeyLe b c → entryKeyLe a c := by
    intro a b c hab hbc
    simp only [entryKeyLe, decide_eq_true_eq] at *
    omega
  have htotal : ∀ (a b : IndexEntry), entryKeyLe a b || entryKeyLe b a := by
    intro a b
    simp only [entryKeyLe, Bool.or_eq_true, decide_eq_true_eq]
    omega
  have hsorted := List.sorted_mergeSort htrans htotal entries
  have hperm := List.mergeSort_perm entries entryKeyLe
  have hnd : ((entries.mergeSort entryKeyLe).map fun e => (e.x, e.y)).Nodup :=
    ((hperm.map _).nodup_iff).2 h
  have hpne : (entries.mergeSort entryKeyLe).Pairwise
      (fun a b => (a.x, a.y) ≠ (b.x, b.y)) := List.pairwise_map.1 hnd
  refine List.Pairwise.chain' (List.Pairwise.imp ?_ (hsorted.and hpne))
  intro a b hab
  obtain ⟨hle, hne⟩ := hab
  simp only [entryKeyLe, decide_eq_true_eq] at hle
  simp only [ne_eq, Prod.mk.injEq, not_and] at hne
  show a.x < b.x ∨ (a.x = b.x ∧ a.y < b.y)
  omega

/-- Witness for the amended C5 at concrete distinct entries. -/
theorem diff3_index_strict_sorted_c5_witness :
    (([IndexEntry.mk 2 2 0 0 0, IndexEntry.mk 1 1 9 5 5].map
        fun e => (e.x, e.y)).Nodup) ∧
    (finalizeEntries [IndexEntry.mk 2 2 0 0 0, IndexEntry.mk 1 1 9 5 5]).Chain' entryKeyLt := by
  have h : (([IndexEntry.mk 2 2 0 0 0, IndexEntry.mk 1 1 9 5 5].map
      fun e => (e.x, e.y)).Nodup) := by decide
  exact ⟨h, diff3_index_strict_sorted_c5 _ h⟩

/-! ## Diff container reader (src/diff3.rs)

The diff file is modelled as its byte list.  `readBytes` models a
`Seek` + `read_exact`: seeking past the end succeeds but reading returns
`UnexpectedEof` (`none`).  The `u64` arithmetic inside `query_chunk` is
wrapping, as compiled in release mode. -/

/-- 2^64, the modulus of wrapping `u64` arithmetic. -/
def U64_MOD : Nat := 18446744073709551616

/-- `INDEX_ENTRY_SIZE` from src/diff3.rs. -/
def INDEX_ENTRY_SIZE : Nat := 24

/-- The magic bytes `wplace-diff` (src/diff3.rs line 17). -/
def MAGIC_BYTES : List Nat := [119, 112, 108, 97, 99, 101, 45, 100, 105, 102, 102]

/-- `VERSION` from src/diff3.rs line 18. -/
def VERSION : Nat := 3

/-- Seek to `pos` and `read_exact` `n` bytes; `none` is `UnexpectedEof`. -/
def readBytes (file : List Nat) (pos n : Nat) : Option (List Nat) :=
  if pos + n ≤ file.length then some ((file.drop pos).take n) else none

/-- Little-endian value of a byte list (first byte least significant). -/
def leNum (bs : List Nat) : Nat := bs.foldr (fun b acc => b + 256 * acc) 0

/-- `readU16` / `readU32` / `readU64` little-endian reads. -/
def readU16 (file : List Nat) (pos : Nat) : Option Nat := (readBytes file pos 2).map leNum

def readU32 (file : List Nat) (pos : Nat) : Option Nat := (readBytes file pos 4).map leNum

def readU64 (file : List Nat) (pos : Nat) : Option Nat := (readBytes file pos 8).map leNum

/-- `DiffFile::read_entry_at_current` (src/diff3.rs lines 119-133) after a
seek to `pos`: decode the 24-byte entry `x u16 | y u16 | checksum u32 |
pos u64 | len u64`. -/
def read_entry_at (file : List Nat) (pos : Nat) : Option IndexEntry :=
  match readBytes file pos 24 with
  | none => none
  | some bs => some (IndexEntry.mk (leNum (bs.take 2)) (leNum ((bs.drop 2).take 2))
      (leNum ((bs.drop 4).take 4)) (leNum ((bs.drop 8).take 8)) (leNum ((bs.drop 16).take 8)))

/-- I/O failure outcomes of the reader. -/
inductive IoErr
  | unexpectedEof
deriving DecidableEq, Repr

/-- Lexicographic order on chunk numbers, Rust's `(u16, u16)` tuple `Ord`. -/
def pairLtB (a b : Nat × Nat) : Bool := decide (a.1 < b.1 ∨ (a.1 = b.1 ∧ a.2 < b.2))

/-- The binary-search loop of `DiffFile::query_chunk` (src/diff3.rs lines
96-117), with wrapping `u64` arithmetic exactly as in release builds:
`mid = (low + high) / 2` wraps on addition, the seek offset
`index_pos + mid * 24` wraps on multiplication and addition, and
`high = mid - 1` wraps below zero.  `fuel` bounds the recursion (the range
at least halves each round, so 128 rounds always suffice for `u64`
bounds); `none` marks fuel exhaustion and is never reached on the inputs
considered here. -/
def queryLoop (file : List Nat) (indexPos : Nat) (target : Nat × Nat) :
    Nat → Nat → Nat → Option (Except IoErr (Option IndexEntry))
  | 0, _, _ => none
  | fuel + 1, low, high =>
    if low ≤ high then
      let mid := ((low + high) % U64_MOD) / 2
      let seekPos := (indexPos + (mid * INDEX_ENTRY_SIZE) % U64_MOD) % U64_MOD
      match read_entry_at file seekPos with
      | none => some (.error .unexpectedEof)
      | some e =>
        if (e.x, e.y) = target then some (.ok (some e))
        else if pairLtB (e.x, e.y) target then queryLoop file indexPos target fuel (mid + 1) high
        else queryLoop file indexPos target fuel low ((mid + U64_MOD - 1) % U64_MOD)
    else some (.ok none)

/-- `DiffFile::query_chunk`: `low = 0`, `high = entry_count as u64 - 1`
(wrapping: for `entry_count = 0` this is `2^64 - 1`). -/
def query_chunk (file : List Nat) (indexPos entryCount : Nat) (target : Nat × Nat) :
    Option (Except IoErr (Option IndexEntry)) :=
  queryLoop file indexPos target 128 0 ((entryCount + U64_MOD - 1) % U64_MOD)

/-- Little-endian encodings used to build concrete diff files. -/
def u16le (v : Nat) : List Nat := [v % 256, v / 256 % 256]

def u32le (v : Nat) : List Nat := [v % 256, v / 2 ^ 8 % 256, v / 2 ^ 16 % 256, v / 2 ^ 24 % 256]

def u64le (v : Nat) : List Nat := [v % 256, v / 2 ^ 8 % 256, v / 2 ^ 16 % 256, v / 2 ^ 24 % 256,
  v / 2 ^ 32 % 256, v / 2 ^ 40 % 256, v / 2 ^ 48 % 256, v / 2 ^ 56 % 256]

/-- The 24-byte on-disk form of an index entry. -/
def encEntry (e : IndexEntry) : List Nat :=
  u16le e.x ++ u16le e.y ++ u32le e.checksum ++ u64le e.pos ++ u64le e.len

/-- A complete well-formed version-3 diff file: magic, version 3,
`index_pos = 31`, `entry_count = 1`, metadata `{}` (length 2), empty
payload, and a single index entry for chunk `(1, 1)` (unchanged, checksum
0).  Total length 55. -/
def sampleDiffFile : List Nat :=
  MAGIC_BYTES ++ u16le VERSION ++ u64le 31 ++ u32le 1 ++ u32le 2 ++ [123, 125] ++
    encEntry (IndexEntry.mk 1 1 0 0 0)

/-- C2 (bug evidence): on `sampleDiffFile`, whose index holds exactly the
entry for `(1, 1)`, querying the absent chunk `(0, 0)` — smaller than the
smallest indexed entry — does not return `none`: `high = mid - 1`
underflows at `mid = 0`, the loop seeks to wrapped offsets (first
`index_pos - 24`, then far past the end of the file) and fails with
`UnexpectedEof`.  (In a debug build the subtraction panics instead.)  The
spec requires `query_chunk(n) = None` for every `n` not in the index. -/
theorem diff3_query_below_min_c2_bug :
    query_chunk sampleDiffFile 31 1 (0, 0) = some (.error .unexpectedEof) := rfl

/-- Errors surfaced by `DiffFile::open`. -/
inductive OpenErr
  | ioEof
  | magicErr
  | versionErr (v : Nat)
  | jsonErr
deriving DecidableEq, Repr

/-- Header data produced by a successful `DiffFile::open`; the metadata
JSON bytes are kept raw (`serde_json` is external). -/
structure DiffFileInfo where
  index_pos : Nat
  entry_count : Nat
  metaBytes : List Nat
deriving DecidableEq, Repr

/-- `DiffFile::open` (src/diff3.rs lines 58-88): verify the 11 magic bytes,
read the little-endian `u16` version and reject anything but 3, then read
`index_pos`, `entry_count` and the length-prefixed metadata JSON.
`parseJson` abstracts the external `serde_json::from_slice`. -/
def open_diff (parseJson : List Nat → Bool) (file : List Nat) : Except OpenErr DiffFileInfo :=
  match readBytes file 0 11 with
  | none => .error .ioEof
  | some magic =>
    if magic ≠ MAGIC_BYTES then .error .magicErr
    else
      match readU16 file 11 with
      | none => .error .ioEof
      | some v =>
        if v ≠ VERSION then .error (.versionErr v)
        else
          match readU64 file 13 with
          | none => .error .ioEof
          | some ip =>
            match readU32 file 21 with
            | none => .error .ioEof
            | some ec =>
              match readU32 file 25 with
              | none => .error .ioEof
              | some ml =>
                match readBytes file 29 ml with
                | none => .error .ioEof
                | some mb =>
                  if parseJson mb then .ok (DiffFileInfo.mk ip ec mb)
                  else .error .jsonErr

/-- C8: `open` accepts only files whose first 11 bytes are the magic
`wplace-diff` and whose following little-endian `u16` version field is 3;
whenever either differs (or the header is truncated) it returns an error,
since success implies both checks passed. -/
theorem diff3_open_magic_version_c8 (parseJson : List Nat → Bool) (file : List Nat)
    (info : DiffFileInfo) (h : open_diff parseJson file = .ok info) :
    file.take 11 = MAGIC_BYTES ∧ readU16 file 11 = some VERSION := by
  unfold open_diff at h
  split at h
  · simp at h
  next magic hmb =>
    split at h
    · simp at h
    next hmag =>
      split at h
      · simp at h
      next v hv =>
        split at h
        · simp at h
        next hver =>
          have hm : magic = MAGIC_BYTES := not_ne_iff.1 hmag
          have hv3 : v = VERSION := not_ne_iff.1 hver
          refine ⟨?_, by rw [hv, hv3]⟩
          unfold readBytes at hmb
          split at hmb
          · have : (file.drop 0).take 11 = magic := by injection hmb
            rw [← hm, ← this, List.drop_zero]
          · exact absurd hmb (by simp)

/-- Only syntactically valid empty-object metadata, modelling
`serde_json::from_slice::<Metadata>` succeeding on the bytes `{}`. -/
def jsonEmptyOk : List Nat → Bool := fun bs => bs == [123, 125]

/-- Witness for C8 on the concrete well-formed diff file. -/
theorem diff3_open_magic_version_c8_witness :
    open_diff jsonEmptyOk sampleDiffFile = .ok (DiffFileInfo.mk 31 1 [123, 125]) ∧
    (sampleDiffFile.take 11 = MAGIC_BYTES ∧ readU16 sampleDiffFile 11 = some VERSION) :=
  ⟨rfl, diff3_open_magic_version_c8 jsonEmptyOk sampleDiffFile
    (DiffFileInfo.mk 31 1 [123, 125]) rfl⟩

/-! ## Tar chunk fetcher indexing (src/tar.rs)

A tar archive is modelled as the list of its entries (entry type, path,
raw file position and size) — the tar container format itself is an
external concern.  `ChunksTarReader::index_chunks` (src/tar.rs lines
31-70) skips the leading root directory entry, ignores non-`Regular`
entries, and for regular entries ASSERTS that the path matches
`.*/(\d+)/(\d+)\.png$` before recording `(x, y) → (start, size)` into a
`BTreeMap`.  `matchesChunkPath` captures the regex on slash-separated,
newline-free paths: at least three components, the second-to-last a
non-empty digit string, the last a non-empty digit string followed by
`.png`.  A failed `assert!` (a panic) is modelled as an error outcome. -/

inductive EntryType
  | directory
  | regular
  | other
deriving DecidableEq, Repr

/-- One tar entry: header entry type, path, `raw_file_position`, `size`. -/
structure TarEntry where
  etype : EntryType
  path : List Char
  start : Nat
  size : Nat
deriving DecidableEq, Repr

def splitOnSlash : List Char → List (List Char)
  | [] => [[]]
  | c :: rest =>
    match splitOnSlash rest with
    | [] => [[]]
    | g :: gs => if c = '/' then [] :: g :: gs else (c :: g) :: gs

def isDigits (l : List Char) : Bool := !l.isEmpty && l.all (fun c => c.isDigit)

def stripPng (l : List Char) : Option (List Char) :=
  if l.reverse.take 4 = ['g', 'n', 'p', '.'] then some (l.take (l.length - 4)) else none

/-- Whether the regex `.*/(\d+)/(\d+)\.png$` matches the path. -/
def matchesChunkPath (p : List Char) : Bool :=
  match (splitOnSlash p).reverse with
  | lastC :: sndLast :: _ :: _ =>
    (match stripPng lastC with
     | some d2 => isDigits d2 && isDigits sndLast
     | none => false)
  | _ => false

def digitsVal (l : List Char) : Nat := l.foldl (fun a c => a * 10 + (c.toNat - 48)) 0

/-- The two captured groups parsed with `parse::<u16>` (values above
65535 make `parse` fail, which `index_chunks` propagates as an error). -/
def chunkCoords (p : List Char) : Option (Nat × Nat) :=
  match (splitOnSlash p).reverse with
  | lastC :: sndLast :: _ :: _ =>
    (match stripPng lastC with
     | some d2 =>
       if digitsVal sndLast ≤ 65535 ∧ digitsVal d2 ≤ 65535 then
         some (digitsVal sndLast, digitsVal d2)
       else none
     | none => none)
  | _ => none

/-- `Range { start, size }` from src/tar.rs. -/
structure ChunkRange where
  start : Nat
  size : Nat
deriving DecidableEq, Repr

/-- `BTreeMap::insert` on an association list ordered by chunk number. -/
def mapInsert (k : Nat × Nat) (v : ChunkRange) :
    List ((Nat × Nat) × ChunkRange) → List ((Nat × Nat) × ChunkRange)
  | [] => [(k, v)]
  | (k2, v2) :: rest =>
    if pairLtB k k2 then (k, v) :: (k2, v2) :: rest
    else if k = k2 then (k, v) :: rest
    else (k2, v2) :: mapInsert k v rest

inductive TarError
  | noEntries
  | firstNotDirectory
  | noFileName
  | badEntryPath
  | numberParse
deriving DecidableEq, Repr

/-- The entry loop of `index_chunks`: non-regular entries are skipped with
`continue`; for regular entries the path is asserted to match the chunk
pattern and the chunk number is parsed and inserted. -/
def indexLoop : List TarEntry → List ((Nat × Nat) × ChunkRange) →
    Except TarError (List ((Nat × Nat) × ChunkRange))
  | [], m => .ok m
  | e :: rest, m =>
    if e.etype ≠ EntryType.regular then indexLoop rest m
    else if matchesChunkPath e.path then
      match chunkCoords e.path with
      | some n => indexLoop rest (mapInsert n (ChunkRange.mk e.start e.size) m)
      | none => .error .numberParse
    else .error .badEntryPath

/-- `Path::file_name`: the last non-empty slash-separated component. -/
def fileName (p : List Char) : Option (List Char) :=
  ((splitOnSlash p).reverse.dropWhile (fun c => c.isEmpty)).head?

/-- `ChunksTarReader::index_chunks` (src/tar.rs lines 31-70): the first
entry must be the root directory (its file name is recorded), then the
entry loop builds the chunk map. -/
def index_chunks (entries : List TarEntry) :
    Except TarError ((List ((Nat × Nat) × ChunkRange)) × List Char) :=
  match entries with
  | [] => .error .noEntries
  | first :: rest =>
    if first.etype = EntryType.directory then
      match fileName first.path with
      | none => .error .noFileName
      | some rootName =>
        match indexLoop rest [] with
        | .ok m => .ok (m, rootName)
        | .error e => .error e
    else .error .firstNotDirectory

/-- `Except.isOk` without relying on library helpers. -/
def exceptIsOk {ε α : Type} : Except ε α → Bool
  | .ok _ => true
  | .error _ => false

lemma indexLoop_skip (e : TarEntry) (he : e.etype ≠ EntryType.regular) :
    ∀ (l1 l2 : List TarEntry) (m : List ((Nat × Nat) × ChunkRange)),
      indexLoop (l1 ++ e :: l2) m = indexLoop (l1 ++ l2) m := by
  intro l1
  induction l1 with
  | nil =>
      intro l2 m
      simp only [List.nil_append, indexLoop, if_pos he]
  | cons a rest ih =>
      intro l2 m
      simp only [List.cons_append, indexLoop]
      by_cases ha : a.etype ≠ EntryType.regular
      · rw [if_pos ha, if_pos ha]; exact ih l2 m
      · rw [if_neg ha, if_neg ha]
        by_cases hm : matchesChunkPath a.path
        · rw [if_pos hm, if_pos hm]
          cases chunkCoords a.path with
          | none => rfl
          | some n => exact ih l2 _
        · rw [if_neg hm, if_neg hm]

lemma indexLoop_badpath (e : TarEntry) (he : e.etype = EntryType.regular)
    (hp : matchesChunkPath e.path = false) :
    ∀ (l1 l2 : List TarEntry) (m : List ((Nat × Nat) × ChunkRange)),
      exceptIsOk (indexLoop (l1 ++ e :: l2) m) = false := by
  intro l1
  induction l1 with
  | nil =>
      intro l2 m
      simp only [List.nil_append, indexLoop, he, hp]
      rfl
  | cons a rest ih =>
      intro l2 m
      simp only [List.cons_append, indexLoop]
      by_cases ha : a.etype ≠ EntryType.regular
      · rw [if_pos ha]; exact ih l2 m
      · rw [if_neg ha]
        by_cases hm : matchesChunkPath a.path
        · rw [if_pos hm]
          cases chunkCoords a.path with
          | none => rfl
          | some n => exact ih l2 _
        · rw [if_neg hm]; rfl

/-- Counterexample to C7 as stated: a tar with a root directory entry and
one regular-file entry `root/readme.txt` that does not match the chunk
pattern.  The claim says indexing completes successfully with the entry
absent from the map; the code hits `assert!(regex.is_match(..))` and
aborts. -/
theorem tar_ignore_nonmatching_c7_counterexample :
    index_chunks [TarEntry.mk EntryType.directory "root/".toList 0 0,
      TarEntry.mk EntryType.regular "root/readme.txt".toList 512 10] =
      .error .badEntryPath := rfl

/-- C7 (amended): only non-regular tar entries are ignored by the indexer
(removing one never changes the result); a regular-file entry whose path
does not match `.*/(\d+)/(\d+)\.png$` makes indexing fail (the code
asserts the match), so it never appears in any resulting chunk map. -/
theorem tar_index_entries_c7 (first : TarEntry) (l1 l2 : List TarEntry) (e : TarEntry) :
    (e.etype ≠ EntryType.regular →
      index_chunks (first :: (l1 ++ e :: l2)) = index_chunks (first :: (l1 ++ l2))) ∧
    (e.etype = EntryType.regular → matchesChunkPath e.path = false →
      exceptIsOk (index_chunks (first :: (l1 ++ e :: l2))) = false) := by
  constructor
  · intro he
    simp only [index_chunks]
    by_cases hd : first.etype = EntryType.directory
    · rw [if_pos hd, if_pos hd]
      cases fileName first.path with
      | none => rfl
      | some rootName => rw [indexLoop_skip e he]
    · rw [if_neg hd, if_neg hd]
  · intro he hp
    simp only [index_chunks]
    by_cases hd : first.etype = EntryType.directory
    · rw [if_pos hd]
      cases fileName first.path with
      | none => rfl
      | some rootName =>
          have := indexLoop_badpath e he hp l1 l2 []
          cases hloop : indexLoop (l1 ++ e :: l2) [] with
          | ok m => rw [hloop] at this; exact absurd this (by simp [exceptIsOk])
          | error err => rfl
    · rw [if_neg hd]; rfl

/-- Witness for the amended C7: a directory entry is ignored, and a
non-matching regular entry aborts indexing. -/
theorem tar_index_entries_c7_witness :
    (TarEntry.mk EntryType.directory "root/12/".toList 0 0).etype ≠ EntryType.regular ∧
    index_chunks [TarEntry.mk EntryType.directory "root/".toList 0 0,
        TarEntry.mk EntryType.directory "root/12/".toList 0 0] =
      index_chunks [TarEntry.mk EntryType.directory "root/".toList 0 0] ∧
    exceptIsOk (index_chunks [TarEntry.mk EntryType.directory "root/".toList 0 0,
        TarEntry.mk EntryType.regular "root/readme.txt".toList 512 10]) = false := by
  refine ⟨by decide, ?_, ?_⟩
  · exact (tar_index_entries_c7 (TarEntry.mk EntryType.directory "root/".toList 0 0)
      [] [] (TarEntry.mk EntryType.directory "root/12/".toList 0 0)).1 (by decide)
  · exact (tar_index_entries_c7 (TarEntry.mk EntryType.directory "root/".toList 0 0)
      [] [] (TarEntry.mk EntryType.regular "root/readme.txt".toList 512 10)).2 rfl rfl

/-! ## Canvas stitching (src/lib.rs `Canvas`)

The canvas byte buffer is modelled as a total function `Nat → Nat` on
flat indices; the nested pixel-copy loops of `Canvas::copy` become nested
`forLoop`s of pointwise `Function.update`s, mirroring
`buf[(rel_y + y) * dimension.0 + (rel_x + x)] = chunk[y * 1000 + x]`. -/

/-- `for i in 0..n` executing `f` with increasing `i`. -/
def forLoop {α : Type} (f : Nat → α → α) : Nat → α → α
  | 0, a => a
  | n + 1, a => f n (forLoop f n a)

lemma forLoop_succ {α : Type} (f : Nat → α → α) (n : Nat) (a : α) :
    forLoop f (n + 1) a = f n (forLoop f n a) := rfl

/-- The nested loops of `Canvas::copy` (src/lib.rs lines 369-373). -/
def copyLoop (dim0 relx rely : Nat) (chunk buf : Nat → Nat) : Nat → Nat :=
  forLoop (fun y acc =>
    forLoop (fun x acc2 =>
      Function.update acc2 ((rely + y) * dim0 + (relx + x)) (chunk (y * CHUNK_WIDTH + x)))
      CHUNK_WIDTH acc)
    CHUNK_WIDTH buf

/-- `Canvas` (src/lib.rs lines 326-330). -/
structure CanvasM where
  buf : Nat → Nat
  minChunk : Nat × Nat
  dimension : Nat × Nat

/-- `Canvas::copy` (src/lib.rs lines 355-374): `rel_x = (n.0 - min.0) *
1000`, `rel_y = (n.1 - min.1) * 1000`, then the nested pixel copy. -/
def CanvasM.copy (c : CanvasM) (n : Nat × Nat) (chunk : Nat → Nat) : CanvasM :=
  { c with
    buf := copyLoop (c.dimension.1) ((n.1 - c.minChunk.1) * CHUNK_WIDTH)
      ((n.2 - c.minChunk.2) * CHUNK_WIDTH) chunk (c.buf) }

lemma forLoop_update_ne {w v : Nat → Nat} {p : Nat} (b : Nat → Nat) :
    ∀ (n : Nat), (∀ i, i < n → w i ≠ p) →
      forLoop (fun i acc => Function.update acc (w i) (v i)) n b p = b p := by
  intro n
  induction n with
  | zero => intro h; rfl
  | succ k ih =>
      intro h
      rw [forLoop_succ]
      rw [Function.update_noteq (Ne.symm (h k (Nat.lt_succ_self k)))]
      exact ih (fun i hi => h i (Nat.lt_succ_of_lt hi))

lemma forLoop_update_eq {w v : Nat → Nat} {p : Nat} (b : Nat → Nat) :
    ∀ (n j : Nat), j < n → w j = p → (∀ i, i < n → w i = p → i = j) →
      forLoop (fun i acc => Function.update acc (w i) (v i)) n b p = v j := by
  intro n
  induction n with
  | zero => intro j hj _ _; omega
  | succ k ih =>
      intro j hj hwj huniq
      rw [forLoop_succ]
      by_cases hk : w k = p
      · have hkj : k = j := huniq k (Nat.lt_succ_self k) hk
        subst hkj
        rw [hk, Function.update_same]
      · rw [Function.update_noteq (Ne.symm hk)]
        have hj' : j < k := by
          rcases Nat.lt_succ_iff_lt_or_eq.1 hj with h | h
          · exact h
          · subst h; exact absurd hwj hk
        exact ih j hj' hwj (fun i hi hwi => huniq i (Nat.lt_succ_of_lt hi) hwi)

lemma rowcol_inj (dim0 : Nat) {r1 c1 r2 c2 : Nat} (h1 : c1 < dim0) (h2 : c2 < dim0)
    (h : r1 * dim0 + c1 = r2 * dim0 + c2) : r1 = r2 ∧ c1 = c2 := by
  have hd : 0 < dim0 := by omega
  have e1 : (r1 * dim0 + c1) / dim0 = r1 := by
    rw [Nat.mul_comm r1 dim0, Nat.mul_add_div hd, Nat.div_eq_of_lt h1]
    omega
  have e2 : (r2 * dim0 + c2) / dim0 = r2 := by
    rw [Nat.mul_comm r2 dim0, Nat.mul_add_div hd, Nat.div_eq_of_lt h2]
    omega
  have hr : r1 = r2 := by rw [← e1, ← e2, h]
  subst hr
  exact ⟨rfl, by omega⟩

lemma copyLoop_untouched (dim0 relx rely : Nat) (chunk buf : Nat → Nat) (p : Nat) :
    ∀ (m : Nat), (∀ y x, y < m → x < CHUNK_WIDTH → (rely + y) * dim0 + (relx + x) ≠ p) →
      forLoop (fun y acc =>
        forLoop (fun x acc2 =>
          Function.update acc2 ((rely + y) * dim0 + (relx + x)) (chunk (y * CHUNK_WIDTH + x)))
          CHUNK_WIDTH acc) m buf p = buf p := by
  intro m
  induction m with
  | zero => intro h; rfl
  | succ k ih =>
      intro h
      rw [forLoop_succ]
      rw [forLoop_update_ne _ CHUNK_WIDTH (fun x hx => h k x (Nat.lt_succ_self k) hx)]
      exact ih (fun y x hy hx => h y x (Nat.lt_succ_of_lt hy) hx)

lemma copyLoop_written (dim0 relx rely : Nat) (chunk buf : Nat → Nat)
    (px py : Nat) (hw : relx + CHUNK_WIDTH ≤ dim0)
    (hpx : px < CHUNK_WIDTH) :
    ∀ (m : Nat), py < m →
      forLoop (fun y acc =>
        forLoop (fun x acc2 =>
          Function.update acc2 ((rely + y) * dim0 + (relx + x)) (chunk (y * CHUNK_WIDTH + x)))
          CHUNK_WIDTH acc) m buf ((rely + py) * dim0 + (relx + px)) =
        chunk (py * CHUNK_WIDTH + px) := by
  intro m
  induction m with
  | zero => intro h; omega
  | succ k ih =>
      intro hpy
      rw [forLoop_succ]
      by_cases hk : k = py
      · subst hk
        exact forLoop_update_eq _ CHUNK_WIDTH px hpx rfl (fun i hi hwi => by omega)
      · have hne : ∀ x, x < CHUNK_WIDTH → (rely + k) * dim0 + (relx + x) ≠
            (rely + py) * dim0 + (relx + px) := by
          intro x hx heq
          have := rowcol_inj dim0 (by omega) (by omega) heq
          omega
        rw [forLoop_update_ne _ CHUNK_WIDTH hne]
        exact ih (by omega)

/-- C9: for a chunk number `n` with `n.x ≥ min.x`, `n.y ≥ min.y`, and the
1000x1000 target rectangle inside the canvas dimensions, `Canvas::copy`
writes the chunk buffer exactly into the rectangle at offset
`((n.x - min.x) * 1000, (n.y - min.y) * 1000)` (first conjunct: the pixel
`(px, py)` of the chunk lands at the corresponding canvas index) and
leaves every canvas byte `q` outside that rectangle unchanged (second
conjunct). -/
theorem canvas_copy_c9 (c : CanvasM) (n : Nat × Nat) (chunk : Nat → Nat)
    (px py q : Nat)
    (hx : c.minChunk.1 ≤ n.1) (hy : c.minChunk.2 ≤ n.2)
    (hw : (n.1 - c.minChunk.1) * CHUNK_WIDTH + CHUNK_WIDTH ≤ c.dimension.1)
    (hh : (n.2 - c.minChunk.2) * CHUNK_WIDTH + CHUNK_WIDTH ≤ c.dimension.2)
    (hpx : px < CHUNK_WIDTH) (hpy : py < CHUNK_WIDTH)
    (hq : q < c.dimension.1 * c.dimension.2)
    (hout : q % c.dimension.1 < (n.1 - c.minChunk.1) * CHUNK_WIDTH ∨
            (n.1 - c.minChunk.1) * CHUNK_WIDTH + CHUNK_WIDTH ≤ q % c.dimension.1 ∨
            q / c.dimension.1 < (n.2 - c.minChunk.2) * CHUNK_WIDTH ∨
            (n.2 - c.minChunk.2) * CHUNK_WIDTH + CHUNK_WIDTH ≤ q / c.dimension.1) :
    (c.copy n chunk).buf
        (((n.2 - c.minChunk.2) * CHUNK_WIDTH + py) * c.dimension.1 +
          ((n.1 - c.minChunk.1) * CHUNK_WIDTH + px)) = chunk (py * CHUNK_WIDTH + px) ∧
    (c.copy n chunk).buf q = c.buf q := by
  simp only [CanvasM.copy]
  constructor
  · exact copyLoop_written (c.dimension.1) ((n.1 - c.minChunk.1) * CHUNK_WIDTH)
      ((n.2 - c.minChunk.2) * CHUNK_WIDTH) chunk (c.buf) px py hw hpx CHUNK_WIDTH hpy
  · apply copyLoop_untouched
    intro y x hy' hx' heq
    have hcol : (n.1 - c.minChunk.1) * CHUNK_WIDTH + x < c.dimension.1 := by omega
    have h1 : q % c.dimension.1 = (n.1 - c.minChunk.1) * CHUNK_WIDTH + x := by
      rw [← heq, Nat.mul_comm ((n.2 - c.minChunk.2) * CHUNK_WIDTH + y) (c.dimension.1),
        Nat.mul_add_mod, Nat.mod_eq_of_lt hcol]
    have h2 : q / c.dimension.1 = (n.2 - c.minChunk.2) * CHUNK_WIDTH + y := by
      rw [← heq, Nat.mul_comm ((n.2 - c.minChunk.2) * CHUNK_WIDTH + y) (c.dimension.1),
        Nat.mul_add_div (by omega), Nat.div_eq_of_lt hcol]
      omega
    omega

/-- A concrete 1x2-chunk canvas (1000 x 2000 bytes), all zero, with
minimum chunk `(0, 0)`. -/
def sampleCanvas : CanvasM := CanvasM.mk (fun _ => 0) (0, 0) (1000, 2000)

/-- Witness for C9: copying chunk `(0, 0)` of constant value 7 onto
`sampleCanvas` writes pixel `(0, 0)` and leaves index 1000000 (the first
byte of the second chunk row, outside the rectangle) unchanged. -/
theorem canvas_copy_c9_witness :
    (0 : Nat) < CHUNK_WIDTH ∧
    (1000000 : Nat) < sampleCanvas.dimension.1 * sampleCanvas.dimension.2 ∧
    (sampleCanvas.copy (0, 0) (fun _ => 7)).buf 0 = 7 ∧
    (sampleCanvas.copy (0, 0) (fun _ => 7)).buf 1000000 = sampleCanvas.buf 1000000 := by
  have h := canvas_copy_c9 sampleCanvas (0, 0) (fun _ => 7) 0 0 1000000
    (by decide) (by decide) (by decide) (by decide) (by decide) (by decide)
    (by decide) (by decide)
  exact ⟨by decide, by decide, h.1, h.2⟩
